import Mathlib

/-!
Shallow embedding of the `angle` crate (`src/lib.rs`): a value type `Angle`
storing a radian measure, with the crate's normalization algorithm,
unit conversions, absolute value, the approximate-equality predicate
`is_within`, and normalized addition/subtraction.  `f64` arithmetic is
idealized as real arithmetic; Rust's `%` on `f64` (the remainder of
truncated division) is modelled by `rustRem`.
-/

open Real

namespace AngleLib

/-- Truncation of a real number toward zero: the rounding used by the
remainder of truncated division that backs the `%` operator on `f64`. -/
noncomputable def rtrunc (r : ℝ) : ℤ := if 0 ≤ r then ⌊r⌋ else ⌈r⌉

/-- Rust `x % y` on `f64`: the remainder of truncated division. -/
noncomputable def rustRem (x y : ℝ) : ℝ := x - y * rtrunc (x / y)

/-- `libm::fabs`. -/
noncomputable def fabs (x : ℝ) : ℝ := |x|

/-- The `Angle` struct of `src/lib.rs`: a wrapped radian value. -/
structure Angle where
  value : ℝ

@[simp]
lemma Angle.mk_value (x : ℝ) : (Angle.mk x).value = x := rfl

namespace Angle

/-- The branch step of `Angle::normalize`: subtract a full turn if the
remainder exceeds `π`, add one if it is below `-π`, else keep it. -/
noncomputable def normalizeStep (v : ℝ) : ℝ :=
  if v > π then v - 2 * π else if v < -π then v + 2 * π else v

/-- `Angle::normalize`: `self.value % (2.0 * PI)` followed by the branch
step, wrapped back into an `Angle`. -/
noncomputable def normalize (a : Angle) : Angle :=
  ⟨normalizeStep (rustRem a.value (2 * π))⟩

/-- `Angle::radians`: wrap and normalize. -/
noncomputable def radians (value : ℝ) : Angle := normalize ⟨value⟩

/-- `Angle::degrees`: `value.to_radians()` is `value * (π / 180)`,
then delegate to `radians`. -/
noncomputable def degrees (value : ℝ) : Angle := radians (value * (π / 180))

/-- `Angle::as_radians`: the stored value, unchanged. -/
def as_radians (a : Angle) : ℝ := a.value

/-- `Angle::as_degrees`: `value.to_degrees()` is `value * (180 / π)`. -/
noncomputable def as_degrees (a : Angle) : ℝ := a.value * (180 / π)

/-- `Angle::abs`: `fabs` of the stored radians, not re-normalized. -/
noncomputable def abs (a : Angle) : Angle := ⟨fabs a.value⟩

/-- `impl Add for Angle`: add the raw values, then normalize. -/
noncomputable def add (a rhs : Angle) : Angle := normalize ⟨a.value + rhs.value⟩

/-- `impl Sub for Angle`: subtract the raw values, then normalize. -/
noncomputable def sub (a rhs : Angle) : Angle := normalize ⟨a.value - rhs.value⟩

/-- `Angle::is_within`: `(self - other).abs().as_radians() < difference.as_radians()`. -/
noncomputable def is_within (a other difference : Angle) : Prop :=
  ((sub a other).abs).as_radians < difference.as_radians

end Angle

/-- A chain of `+`/`-` operations applied from the left: `true` means add,
`false` means subtract. -/
noncomputable def applyChain (a : Angle) (ops : List (Bool × Angle)) : Angle :=
  ops.foldl (fun acc op => if op.1 then Angle.add acc op.2 else Angle.sub acc op.2) a

/-! ### Basic facts about `rtrunc` and `rustRem` -/

lemma abs_sub_rtrunc_lt_one (r : ℝ) : |r - (rtrunc r : ℝ)| < 1 := by
  unfold rtrunc
  split_ifs with h
  · rw [abs_of_nonneg (by linarith [Int.floor_le r])]
    linarith [Int.lt_floor_add_one r]
  · rw [abs_of_nonpos (by linarith [Int.le_ceil r])]
    linarith [Int.ceil_lt_add_one r]

lemma abs_rustRem_lt (x : ℝ) {y : ℝ} (hy : 0 < y) : |rustRem x y| < y := by
  have h := abs_sub_rtrunc_lt_one (x / y)
  have he : rustRem x y = y * (x / y - (rtrunc (x / y) : ℝ)) := by
    unfold rustRem
    rw [mul_sub, mul_comm y (x / y), div_mul_cancel₀ x (ne_of_gt hy)]
  calc |rustRem x y| = y * |x / y - (rtrunc (x / y) : ℝ)| := by
        rw [he, abs_mul, abs_of_pos hy]
    _ < y * 1 := (mul_lt_mul_left hy).mpr h
    _ = y := mul_one y

lemma rustRem_eq_add_int_mul (x y : ℝ) : ∃ n : ℤ, rustRem x y = x + y * n :=
  ⟨-rtrunc (x / y), by unfold rustRem; push_cast; ring⟩

lemma rtrunc_intCast (m : ℤ) : rtrunc (m : ℝ) = m := by
  unfold rtrunc
  split_ifs <;> simp

lemma rustRem_two_pi_mul_int (m : ℤ) : rustRem (2 * π * (m : ℝ)) (2 * π) = 0 := by
  unfold rustRem
  have h2 : (2 * π) ≠ 0 := by positivity
  have hdiv : (2 * π * (m : ℝ)) / (2 * π) = (m : ℝ) := by
    rw [mul_comm (2 * π) (m : ℝ), mul_div_assoc, div_self h2, mul_one]
  rw [hdiv, rtrunc_intCast]
  ring

/-! ### Range and congruence facts about normalization -/

lemma normalizeStep_mem {v : ℝ} (h : |v| < 2 * π) :
    Angle.normalizeStep v ∈ Set.Icc (-π) π := by
  rw [abs_lt] at h
  have hpi := Real.pi_pos
  unfold Angle.normalizeStep
  split_ifs with h1 h2 <;> constructor <;> linarith

lemma normalizeStep_zero : Angle.normalizeStep 0 = 0 := by
  have hpi := Real.pi_pos
  unfold Angle.normalizeStep
  split_ifs <;> linarith

lemma normalizeStep_eq_add_int_mul (v : ℝ) :
    ∃ n : ℤ, Angle.normalizeStep v = v + 2 * π * n := by
  unfold Angle.normalizeStep
  split_ifs
  · exact ⟨-1, by push_cast; ring⟩
  · exact ⟨1, by push_cast; ring⟩
  · exact ⟨0, by push_cast; ring⟩

lemma normalize_value_mem (a : Angle) :
    (Angle.normalize a).value ∈ Set.Icc (-π) π :=
  normalizeStep_mem (abs_rustRem_lt a.value (by positivity))

lemma normalize_value_eq_add_int_mul (a : Angle) :
    ∃ n : ℤ, (Angle.normalize a).value = a.value + 2 * π * n := by
  obtain ⟨n1, h1⟩ := rustRem_eq_add_int_mul a.value (2 * π)
  obtain ⟨n2, h2⟩ := normalizeStep_eq_add_int_mul (rustRem a.value (2 * π))
  refine ⟨n1 + n2, ?_⟩
  show Angle.normalizeStep (rustRem a.value (2 * π)) = _
  rw [h2, h1]
  push_cast
  ring

lemma normalize_two_pi_mul_int (m : ℤ) :
    Angle.normalize ⟨2 * π * (m : ℝ)⟩ = ⟨0⟩ := by
  show (⟨Angle.normalizeStep (rustRem (2 * π * (m : ℝ)) (2 * π))⟩ : Angle) = ⟨0⟩
  rw [rustRem_two_pi_mul_int, normalizeStep_zero]

/-! ### Exact evaluation on rational multiples of π

Every input appearing in the crate's tests is a rational multiple of π, and
`normalize` maps rational multiples of π to rational multiples of π.  The
function `normQ` mirrors `normalize` on the rational coefficient, which
makes concrete runs of the code decidable. -/

/-- Truncation toward zero on ℚ, mirroring `rtrunc`. -/
def qtrunc (q : ℚ) : ℤ := if 0 ≤ q then ⌊q⌋ else ⌈q⌉

/-- The coefficient of π left by `q*π % (2*π)`. -/
def qrem (q : ℚ) : ℚ := q - 2 * qtrunc (q / 2)

/-- `normalize` on the rational coefficient of π. -/
def normQ (q : ℚ) : ℚ :=
  if qrem q > 1 then qrem q - 2 else if qrem q < -1 then qrem q + 2 else qrem q

lemma rtrunc_ratCast (q : ℚ) : rtrunc (q : ℝ) = qtrunc q := by
  unfold rtrunc qtrunc
  by_cases h : 0 ≤ q
  · rw [if_pos h, if_pos (by exact_mod_cast h), Rat.floor_cast]
  · rw [if_neg h, if_neg (by exact_mod_cast h), Rat.ceil_cast]

lemma rustRem_ratCast_mul_pi (q : ℚ) :
    rustRem ((q : ℝ) * π) (2 * π) = (qrem q : ℝ) * π := by
  unfold rustRem
  have hdiv : ((q : ℝ) * π) / (2 * π) = ((q / 2 : ℚ) : ℝ) := by
    push_cast
    rw [div_eq_div_iff (by positivity) (by norm_num)]
    ring
  rw [hdiv, rtrunc_ratCast]
  unfold qrem
  push_cast
  ring

lemma normalize_ratCast_mul_pi (q : ℚ) :
    Angle.normalize ⟨(q : ℝ) * π⟩ = ⟨(normQ q : ℝ) * π⟩ := by
  have hpi := Real.pi_pos
  have h1 : (1 < qrem q) ↔ (π < (qrem q : ℝ) * π) := by
    rw [lt_mul_iff_one_lt_left hpi]
    norm_cast
  have h2 : (qrem q < -1) ↔ ((qrem q : ℝ) * π < -π) := by
    rw [show -π = (-1 : ℝ) * π by ring, mul_lt_mul_right hpi]
    norm_cast
  show (⟨Angle.normalizeStep (rustRem ((q : ℝ) * π) (2 * π))⟩ : Angle) = _
  rw [rustRem_ratCast_mul_pi]
  congr 1
  unfold Angle.normalizeStep normQ
  simp only [gt_iff_lt, h1, h2]
  split_ifs <;> push_cast <;> ring

lemma radians_ratCast_mul_pi (q : ℚ) :
    Angle.radians ((q : ℝ) * π) = ⟨(normQ q : ℝ) * π⟩ :=
  normalize_ratCast_mul_pi q

lemma degrees_ratCast (q : ℚ) :
    Angle.degrees (q : ℝ) = ⟨(normQ (q / 180) : ℝ) * π⟩ := by
  show Angle.radians ((q : ℝ) * (π / 180)) = _
  rw [show (q : ℝ) * (π / 180) = ((q / 180 : ℚ) : ℝ) * π by push_cast; ring]
  exact radians_ratCast_mul_pi (q / 180)

lemma add_ratCast_mul_pi (a b : ℚ) :
    Angle.add ⟨(a : ℝ) * π⟩ ⟨(b : ℝ) * π⟩ = ⟨(normQ (a + b) : ℝ) * π⟩ := by
  show Angle.normalize ⟨(a : ℝ) * π + (b : ℝ) * π⟩ = _
  rw [show (a : ℝ) * π + (b : ℝ) * π = ((a + b : ℚ) : ℝ) * π by push_cast; ring]
  exact normalize_ratCast_mul_pi (a + b)

lemma sub_ratCast_mul_pi (a b : ℚ) :
    Angle.sub ⟨(a : ℝ) * π⟩ ⟨(b : ℝ) * π⟩ = ⟨(normQ (a - b) : ℝ) * π⟩ := by
  show Angle.normalize ⟨(a : ℝ) * π - (b : ℝ) * π⟩ = _
  rw [show (a : ℝ) * π - (b : ℝ) * π = ((a - b : ℚ) : ℝ) * π by push_cast; ring]
  exact normalize_ratCast_mul_pi (a - b)

lemma is_within_ratCast_mul_pi (a b d : ℚ) :
    Angle.is_within ⟨(a : ℝ) * π⟩ ⟨(b : ℝ) * π⟩ ⟨(d : ℝ) * π⟩ ↔ |normQ (a - b)| < d := by
  show ((Angle.sub ⟨(a : ℝ) * π⟩ ⟨(b : ℝ) * π⟩).abs).as_radians < (d : ℝ) * π ↔ _
  rw [sub_ratCast_mul_pi]
  show |(normQ (a - b) : ℝ) * π| < (d : ℝ) * π ↔ _
  rw [abs_mul, abs_of_pos Real.pi_pos, mul_lt_mul_right Real.pi_pos]
  norm_cast

/-! ### Evaluating `normQ` at small arguments

Every concrete coefficient the claims need lies in `(-2, 2)`, where the
truncation in `qrem` is zero, so `normQ` reduces to its final branch. -/

lemma qtrunc_zero (q : ℚ) (h1 : -1 < q) (h2 : q < 1) : qtrunc q = 0 := by
  unfold qtrunc
  split_ifs with h
  · exact Int.floor_eq_zero_iff.mpr (Set.mem_Ico.mpr ⟨h, h2⟩)
  · exact Int.ceil_eq_zero_iff.mpr (Set.mem_Ioc.mpr ⟨h1, by linarith⟩)

lemma qrem_small (q : ℚ) (h1 : -2 < q) (h2 : q < 2) : qrem q = q := by
  unfold qrem
  rw [qtrunc_zero (q / 2) (by linarith) (by linarith)]
  norm_num

lemma normQ_of_small (q : ℚ) (h1 : -2 < q) (h2 : q < 2) :
    normQ q = if q > 1 then q - 2 else if q < -1 then q + 2 else q := by
  unfold normQ
  rw [qrem_small q h1 h2]

lemma normQ_zero : normQ 0 = 0 := by
  rw [normQ_of_small 0 (by norm_num) (by norm_num)]; norm_num

lemma normQ_one : normQ 1 = 1 := by
  rw [normQ_of_small 1 (by norm_num) (by norm_num)]; norm_num

lemma normQ_neg_one : normQ (-1) = -1 := by
  rw [normQ_of_small (-1) (by norm_num) (by norm_num)]; norm_num

lemma normQ_half : normQ (1 / 2) = 1 / 2 := by
  rw [normQ_of_small (1 / 2) (by norm_num) (by norm_num)]; norm_num

lemma normQ_neg_half : normQ (-1 / 2) = -1 / 2 := by
  rw [normQ_of_small (-1 / 2) (by norm_num) (by norm_num)]; norm_num

lemma normQ_three_halves : normQ (3 / 2) = -1 / 2 := by
  rw [normQ_of_small (3 / 2) (by norm_num) (by norm_num)]; norm_num

lemma normQ_neg_three_halves : normQ (-3 / 2) = 1 / 2 := by
  rw [normQ_of_small (-3 / 2) (by norm_num) (by norm_num)]; norm_num

lemma normQ_sep : normQ (179 / 90) = -1 / 90 := by
  rw [normQ_of_small (179 / 90) (by norm_num) (by norm_num)]; norm_num

lemma normQ_c179 : normQ (179 / 180) = 179 / 180 := by
  rw [normQ_of_small (179 / 180) (by norm_num) (by norm_num)]; norm_num

lemma normQ_neg_c179 : normQ (-179 / 180) = -179 / 180 := by
  rw [normQ_of_small (-179 / 180) (by norm_num) (by norm_num)]; norm_num

lemma normQ_tol : normQ (1 / 72) = 1 / 72 := by
  rw [normQ_of_small (1 / 72) (by norm_num) (by norm_num)]; norm_num

lemma normQ_milli : normQ (1 / 180000) = 1 / 180000 := by
  rw [normQ_of_small (1 / 180000) (by norm_num) (by norm_num)]; norm_num

/-! ### Concrete runs of the code used by several claims -/

lemma value_radians_neg_pi : (Angle.radians (-π)).value = -π := by
  rw [show -π = ((-1 : ℚ) : ℝ) * π by push_cast; ring, radians_ratCast_mul_pi,
    Angle.mk_value, normQ_neg_one]

lemma value_radians_pi : (Angle.radians π).value = π := by
  rw [show (π : ℝ) = ((1 : ℚ) : ℝ) * π by push_cast; ring, radians_ratCast_mul_pi,
    Angle.mk_value, normQ_one]

lemma degrees_90 : Angle.degrees (90 : ℝ) = ⟨((1 / 2 : ℚ) : ℝ) * π⟩ := by
  rw [show (90 : ℝ) = ((90 : ℚ) : ℝ) by norm_num, degrees_ratCast,
    show (90 / 180 : ℚ) = 1 / 2 by norm_num, normQ_half]

lemma degrees_180 : Angle.degrees (180 : ℝ) = ⟨((1 : ℚ) : ℝ) * π⟩ := by
  rw [show (180 : ℝ) = ((180 : ℚ) : ℝ) by norm_num, degrees_ratCast,
    show (180 / 180 : ℚ) = 1 by norm_num, normQ_one]

lemma degrees_neg_90 : Angle.degrees (-90 : ℝ) = ⟨((-1 / 2 : ℚ) : ℝ) * π⟩ := by
  rw [show (-90 : ℝ) = ((-90 : ℚ) : ℝ) by norm_num, degrees_ratCast,
    show (-90 / 180 : ℚ) = -1 / 2 by norm_num, normQ_neg_half]

lemma degrees_milli : Angle.degrees (0.001 : ℝ) = ⟨((1 / 180000 : ℚ) : ℝ) * π⟩ := by
  rw [show (0.001 : ℝ) = ((1 / 1000 : ℚ) : ℝ) by norm_num, degrees_ratCast,
    show (1 / 1000 / 180 : ℚ) = 1 / 180000 by norm_num, normQ_milli]

lemma degrees_179 : Angle.degrees (179 : ℝ) = ⟨((179 / 180 : ℚ) : ℝ) * π⟩ := by
  rw [show (179 : ℝ) = ((179 : ℚ) : ℝ) by norm_num, degrees_ratCast, normQ_c179]

lemma degrees_neg_179 : Angle.degrees (-179 : ℝ) = ⟨((-179 / 180 : ℚ) : ℝ) * π⟩ := by
  rw [show (-179 : ℝ) = ((-179 : ℚ) : ℝ) by norm_num, degrees_ratCast,
    show (-179 / 180 : ℚ) = -179 / 180 from rfl, normQ_neg_c179]

lemma degrees_two_point_five : Angle.degrees (2.5 : ℝ) = ⟨((1 / 72 : ℚ) : ℝ) * π⟩ := by
  rw [show (2.5 : ℝ) = ((5 / 2 : ℚ) : ℝ) by norm_num, degrees_ratCast,
    show (5 / 2 / 180 : ℚ) = 1 / 72 by norm_num, normQ_tol]

/-- Two angles with the same stored rational coefficient of π are within any
positive tolerance of each other. -/
lemma is_within_same (a d : ℚ) (hd : 0 < d) :
    Angle.is_within ⟨(a : ℝ) * π⟩ ⟨(a : ℝ) * π⟩ ⟨(d : ℝ) * π⟩ := by
  rw [is_within_ratCast_mul_pi, sub_self, normQ_zero, abs_zero]
  exact hd

lemma add_half_one :
    Angle.add ⟨((1 / 2 : ℚ) : ℝ) * π⟩ ⟨((1 : ℚ) : ℝ) * π⟩ = ⟨((-1 / 2 : ℚ) : ℝ) * π⟩ := by
  rw [add_ratCast_mul_pi, show (1 / 2 + 1 : ℚ) = 3 / 2 by norm_num, normQ_three_halves]

lemma add_neg_half_one :
    Angle.add ⟨((-1 / 2 : ℚ) : ℝ) * π⟩ ⟨((1 : ℚ) : ℝ) * π⟩ = ⟨((1 / 2 : ℚ) : ℝ) * π⟩ := by
  rw [add_ratCast_mul_pi, show (-1 / 2 + 1 : ℚ) = 1 / 2 by norm_num, normQ_half]

lemma sub_half_one :
    Angle.sub ⟨((1 / 2 : ℚ) : ℝ) * π⟩ ⟨((1 : ℚ) : ℝ) * π⟩ = ⟨((-1 / 2 : ℚ) : ℝ) * π⟩ := by
  rw [sub_ratCast_mul_pi, show (1 / 2 - 1 : ℚ) = -1 / 2 by norm_num, normQ_neg_half]

lemma sub_neg_half_one :
    Angle.sub ⟨((-1 / 2 : ℚ) : ℝ) * π⟩ ⟨((1 : ℚ) : ℝ) * π⟩ = ⟨((1 / 2 : ℚ) : ℝ) * π⟩ := by
  rw [sub_ratCast_mul_pi, show (-1 / 2 - 1 : ℚ) = -3 / 2 by norm_num, normQ_neg_three_halves]

/-- Applying a nonempty `+`/`-` chain keeps the closed range, because each
step ends in `normalize`. -/
lemma applyChain_mem (ops : List (Bool × Angle)) (a : Angle)
    (h : a.value ∈ Set.Icc (-π) π) : (applyChain a ops).value ∈ Set.Icc (-π) π := by
  induction ops generalizing a with
  | nil => exact h
  | cons op ops ih =>
    show (applyChain (if op.1 then Angle.add a op.2 else Angle.sub a op.2) ops).value ∈ _
    apply ih
    split_ifs
    · exact normalize_value_mem _
    · exact normalize_value_mem _

/-- Normalizing `x` and `-x` yields values of equal magnitude: they are
opposite except possibly at the `±π` boundary, where both magnitudes are π. -/
lemma abs_normalize_neg (x : ℝ) :
    |(Angle.normalize ⟨-x⟩).value| = |(Angle.normalize ⟨x⟩).value| := by
  obtain ⟨n1, h1⟩ := normalize_value_eq_add_int_mul ⟨x⟩
  obtain ⟨n2, h2⟩ := normalize_value_eq_add_int_mul ⟨-x⟩
  simp only [Angle.mk_value] at h1 h2
  have hm1 := normalize_value_mem ⟨x⟩
  have hm2 := normalize_value_mem ⟨-x⟩
  rw [Set.mem_Icc] at hm1 hm2
  have hpi := Real.pi_pos
  have hsum : (Angle.normalize ⟨x⟩).value + (Angle.normalize ⟨-x⟩).value
      = 2 * π * ((n1 + n2 : ℤ) : ℝ) := by
    rw [h1, h2]
    push_cast
    ring
  have hub2 : 2 * π * ((n1 + n2 : ℤ) : ℝ) ≤ 2 * π * 1 := by
    rw [← hsum, mul_one]
    linarith [hm1.2, hm2.2]
  have hlb2 : 2 * π * (-1 : ℝ) ≤ 2 * π * ((n1 + n2 : ℤ) : ℝ) := by
    rw [← hsum]
    linarith [hm1.1, hm2.1]
  have hub : n1 + n2 ≤ 1 := by
    have h := le_of_mul_le_mul_left hub2 (by positivity : (0 : ℝ) < 2 * π)
    exact_mod_cast h
  have hlb : -1 ≤ n1 + n2 := by
    have h := le_of_mul_le_mul_left hlb2 (by positivity : (0 : ℝ) < 2 * π)
    exact_mod_cast h
  have h3 : n1 + n2 = -1 ∨ n1 + n2 = 0 ∨ n1 + n2 = 1 := by omega
  rcases h3 with h3 | h3 | h3
  · rw [h3] at hsum
    push_cast at hsum
    have e1 : (Angle.normalize ⟨x⟩).value = -π := by linarith [hm1.1, hm2.1]
    have e2 : (Angle.normalize ⟨-x⟩).value = -π := by linarith [hm1.1, hm2.1]
    rw [e1, e2]
  · rw [h3] at hsum
    push_cast at hsum
    have e : (Angle.normalize ⟨-x⟩).value = -(Angle.normalize ⟨x⟩).value := by linarith
    rw [e, abs_neg]
  · rw [h3] at hsum
    push_cast at hsum
    have e1 : (Angle.normalize ⟨x⟩).value = π := by linarith [hm1.2, hm2.2]
    have e2 : (Angle.normalize ⟨-x⟩).value = π := by linarith [hm1.2, hm2.2]
    rw [e1, e2]

/-! ### The claims -/

/-- Claim C1, counterexample: at input exactly `-π` the stored value is `-π`,
which is not in the half-open interval `(-π, π]`; the `< -π` branch of
`normalize` is strict, so a remainder of exactly `-π` is kept, not converted
to `+π`. -/
theorem C1_counterexample :
    ¬ (Angle.radians (-π)).as_radians ∈ Set.Ioc (-π) π := by
  show ¬ (Angle.radians (-π)).value ∈ Set.Ioc (-π) π
  rw [value_radians_neg_pi, Set.mem_Ioc]
  intro h
  exact lt_irrefl _ h.1

/-- Claim C1, amended: for every input `v`, `radians(v).as_radians()` lies in
the closed interval `[-π, π]`; a remainder of exactly `-π` is kept as `-π`
(so `-π` is an observable stored value), while `+π` stays `+π`. -/
theorem C1_normalization_range :
    (∀ v : ℝ, (Angle.radians v).as_radians ∈ Set.Icc (-π) π)
      ∧ (Angle.radians (-π)).as_radians = -π
      ∧ (Angle.radians π).as_radians = π :=
  ⟨fun v => normalize_value_mem ⟨v⟩, value_radians_neg_pi, value_radians_pi⟩

/-- Claim C2, counterexample: `radians(-π/2)` is canonical in `(-π, π]`, yet
adding it to itself stores exactly `-π`, which is outside `(-π, π]`. -/
theorem C2_counterexample :
    (Angle.radians (-(π / 2))).as_radians ∈ Set.Ioc (-π) π
      ∧ ¬ (Angle.add (Angle.radians (-(π / 2))) (Angle.radians (-(π / 2)))).as_radians
          ∈ Set.Ioc (-π) π := by
  have hpi := Real.pi_pos
  have ha : Angle.radians (-(π / 2)) = ⟨((-1 / 2 : ℚ) : ℝ) * π⟩ := by
    rw [show -(π / 2) = ((-1 / 2 : ℚ) : ℝ) * π by push_cast; ring, radians_ratCast_mul_pi,
      normQ_neg_half]
  have hb : Angle.add (Angle.radians (-(π / 2))) (Angle.radians (-(π / 2)))
      = ⟨((-1 : ℚ) : ℝ) * π⟩ := by
    rw [ha, add_ratCast_mul_pi, show (-1 / 2 + -1 / 2 : ℚ) = -1 by norm_num, normQ_neg_one]
  constructor
  · show (Angle.radians (-(π / 2))).value ∈ _
    rw [ha, Angle.mk_value, Set.mem_Ioc]
    constructor
    · push_cast
      linarith
    · push_cast
      linarith
  · show ¬ (Angle.add (Angle.radians (-(π / 2))) (Angle.radians (-(π / 2)))).value ∈ _
    rw [hb, Angle.mk_value, Set.mem_Ioc]
    push_cast
    intro h
    linarith [h.1]

/-- Claim C2, amended: addition and subtraction of any two angles store a
value in the closed interval `[-π, π]`, and so does every nonempty chain of
additions and subtractions. -/
theorem C2_closure :
    (∀ a b : Angle, (Angle.add a b).as_radians ∈ Set.Icc (-π) π
      ∧ (Angle.sub a b).as_radians ∈ Set.Icc (-π) π)
    ∧ ∀ (a : Angle) (op : Bool × Angle) (ops : List (Bool × Angle)),
        (applyChain a (op :: ops)).as_radians ∈ Set.Icc (-π) π := by
  refine ⟨fun a b => ⟨normalize_value_mem _, normalize_value_mem _⟩, fun a op ops => ?_⟩
  show (applyChain (if op.1 then Angle.add a op.2 else Angle.sub a op.2) ops).value ∈ _
  apply applyChain_mem
  split_ifs
  · exact normalize_value_mem _
  · exact normalize_value_mem _

/-- Claim C3: `is_within` holds exactly when the absolute value of the
normalized subtraction, read in radians, is strictly below the tolerance,
and in particular 179° is within 2.5° of -179° (shortest separation 2°). -/
theorem C3_is_within_shortest_path :
    (∀ a b d : Angle, Angle.is_within a b d ↔
      |(Angle.normalize ⟨a.as_radians - b.as_radians⟩).as_radians| < d.as_radians)
    ∧ Angle.is_within (Angle.degrees 179) (Angle.degrees (-179)) (Angle.degrees 2.5) := by
  constructor
  · intro a b d
    exact Iff.rfl
  · rw [degrees_179, degrees_neg_179, degrees_two_point_five, is_within_ratCast_mul_pi,
      show (179 / 180 - -179 / 180 : ℚ) = 179 / 90 by norm_num, normQ_sep, abs_lt]
    constructor <;> norm_num

/-- Claim C4: `degrees(v)` converts through the `v·π/180` transform and
delegates to `radians`, so it stores exactly the same value as
`radians(v·π/180)` in the real-number model. -/
theorem C4_degree_radian_round_trip (v : ℝ) :
    (Angle.degrees v).as_radians = (Angle.radians (v * π / 180)).as_radians := by
  rw [mul_div_assoc]
  rfl

/-- Claim C5: shifting an angle by any whole number of turns yields an angle
within 0.001° of the original — the normalized difference of the two
constructions is exactly zero. -/
theorem C5_periodicity (v : ℝ) (k : ℤ) :
    Angle.is_within (Angle.degrees v) (Angle.degrees (v + 360 * (k : ℝ)))
      (Angle.degrees 0.001) := by
  obtain ⟨n1, h1⟩ := normalize_value_eq_add_int_mul ⟨v * (π / 180)⟩
  obtain ⟨n2, h2⟩ := normalize_value_eq_add_int_mul ⟨(v + 360 * (k : ℝ)) * (π / 180)⟩
  simp only [Angle.mk_value] at h1 h2
  have hd : (Angle.degrees v).value - (Angle.degrees (v + 360 * (k : ℝ))).value
      = 2 * π * ((n1 - k - n2 : ℤ) : ℝ) := by
    show (Angle.normalize ⟨v * (π / 180)⟩).value
        - (Angle.normalize ⟨(v + 360 * (k : ℝ)) * (π / 180)⟩).value = _
    rw [h1, h2]
    push_cast
    ring
  have hsub : Angle.sub (Angle.degrees v) (Angle.degrees (v + 360 * (k : ℝ))) = ⟨0⟩ := by
    show Angle.normalize ⟨(Angle.degrees v).value
        - (Angle.degrees (v + 360 * (k : ℝ))).value⟩ = ⟨0⟩
    rw [hd]
    exact normalize_two_pi_mul_int _
  show ((Angle.sub (Angle.degrees v) (Angle.degrees (v + 360 * (k : ℝ)))).abs).as_radians
      < (Angle.degrees 0.001).as_radians
  rw [hsub]
  show |(0 : ℝ)| < (Angle.degrees 0.001).value
  rw [abs_zero, show Angle.degrees (0.001 : ℝ) = ⟨((1 / 180000 : ℚ) : ℝ) * π⟩
    from degrees_milli, Angle.mk_value]
  have h0 : (0 : ℝ) < ((1 / 180000 : ℚ) : ℝ) := by norm_num
  exact mul_pos h0 Real.pi_pos

/-- Claim C6: the 90° plus-180° chain lands within 0.001° of -90°, then 90°,
then -90° again, and the same chain with subtraction yields the identical
sequence. -/
theorem C6_wraparound_chain :
    Angle.is_within (Angle.add (Angle.degrees 90) (Angle.degrees 180))
        (Angle.degrees (-90)) (Angle.degrees 0.001)
    ∧ Angle.is_within (Angle.add (Angle.add (Angle.degrees 90) (Angle.degrees 180))
        (Angle.degrees 180)) (Angle.degrees 90) (Angle.degrees 0.001)
    ∧ Angle.is_within (Angle.add (Angle.add (Angle.add (Angle.degrees 90)
        (Angle.degrees 180)) (Angle.degrees 180)) (Angle.degrees 180))
        (Angle.degrees (-90)) (Angle.degrees 0.001)
    ∧ Angle.is_within (Angle.sub (Angle.degrees 90) (Angle.degrees 180))
        (Angle.degrees (-90)) (Angle.degrees 0.001)
    ∧ Angle.is_within (Angle.sub (Angle.sub (Angle.degrees 90) (Angle.degrees 180))
        (Angle.degrees 180)) (Angle.degrees 90) (Angle.degrees 0.001)
    ∧ Angle.is_within (Angle.sub (Angle.sub (Angle.sub (Angle.degrees 90)
        (Angle.degrees 180)) (Angle.degrees 180)) (Angle.degrees 180))
        (Angle.degrees (-90)) (Angle.degrees 0.001) := by
  refine ⟨?_, ?_, ?_, ?_, ?_, ?_⟩
  · rw [degrees_90, degrees_180, degrees_neg_90, degrees_milli, add_half_one]
    exact is_within_same (-1 / 2) (1 / 180000) (by norm_num)
  · rw [degrees_90, degrees_180, degrees_milli, add_half_one, add_neg_half_one]
    exact is_within_same (1 / 2) (1 / 180000) (by norm_num)
  · rw [degrees_90, degrees_180, degrees_neg_90, degrees_milli, add_half_one,
      add_neg_half_one, add_half_one]
    exact is_within_same (-1 / 2) (1 / 180000) (by norm_num)
  · rw [degrees_90, degrees_180, degrees_neg_90, degrees_milli, sub_half_one]
    exact is_within_same (-1 / 2) (1 / 180000) (by norm_num)
  · rw [degrees_90, degrees_180, degrees_milli, sub_half_one, sub_neg_half_one]
    exact is_within_same (1 / 2) (1 / 180000) (by norm_num)
  · rw [degrees_90, degrees_180, degrees_neg_90, degrees_milli, sub_half_one,
      sub_neg_half_one, sub_half_one]
    exact is_within_same (-1 / 2) (1 / 180000) (by norm_num)

/-- Claim C7: a tolerance angle with nonpositive stored radians makes
`is_within` false for all angle pairs, the comparison being a strict
less-than against a nonnegative absolute value. -/
theorem C7_nonpositive_tolerance (a b d : Angle) (h : d.as_radians ≤ 0) :
    ¬ Angle.is_within a b d := by
  show ¬ (|(Angle.sub a b).value| < d.value)
  push_neg
  exact le_trans h (abs_nonneg _)

/-- Claim C7, witness: two exactly equal angles with an exactly zero
tolerance are not within each other. -/
theorem C7_witness :
    (Angle.mk 0).as_radians ≤ 0
      ∧ ¬ Angle.is_within (Angle.mk 0) (Angle.mk 0) (Angle.mk 0) :=
  ⟨le_refl 0, C7_nonpositive_tolerance (Angle.mk 0) (Angle.mk 0) (Angle.mk 0) (le_refl 0)⟩

/-- Claim C8, counterexample: the angle built from input `-π` converts to
exactly `-180` degrees, which is outside the half-open interval `(-180, 180]`. -/
theorem C8_counterexample :
    (Angle.radians (-π)).as_degrees = -180
      ∧ ¬ (Angle.radians (-π)).as_degrees ∈ Set.Ioc (-180 : ℝ) 180 := by
  have hne := Real.pi_ne_zero
  have h : (Angle.radians (-π)).as_degrees = -180 := by
    show (Angle.radians (-π)).value * (180 / π) = -180
    rw [value_radians_neg_pi]
    field_simp
    ring
  refine ⟨h, ?_⟩
  rw [h, Set.mem_Ioc]
  intro hmem
  exact lt_irrefl _ hmem.1

/-- Claim C8, amended: `as_degrees` returns the raw `value × 180/π`
conversion with no re-normalization, and for every constructed angle the
result lies in the closed interval `[-180, 180]`. -/
theorem C8_as_degrees_range :
    (∀ a : Angle, a.as_degrees = a.as_radians * (180 / π))
      ∧ ∀ v : ℝ, (Angle.radians v).as_degrees ∈ Set.Icc (-180 : ℝ) 180 := by
  have hne := Real.pi_ne_zero
  refine ⟨fun a => rfl, fun v => ?_⟩
  have h := normalize_value_mem ⟨v⟩
  rw [Set.mem_Icc] at h
  have hc : (0 : ℝ) < 180 / π := by positivity
  have h1 := mul_le_mul_of_nonneg_right h.1 hc.le
  have h2 := mul_le_mul_of_nonneg_right h.2 hc.le
  have e1 : -π * (180 / π) = -180 := by field_simp; ring
  have e2 : π * (180 / π) = 180 := by field_simp
  show (Angle.radians v).value * (180 / π) ∈ Set.Icc (-180 : ℝ) 180
  rw [Set.mem_Icc]
  constructor
  · calc (-180 : ℝ) = -π * (180 / π) := e1.symm
      _ ≤ (Angle.radians v).value * (180 / π) := h1
  · calc (Angle.radians v).value * (180 / π) ≤ π * (180 / π) := h2
      _ = 180 := e2

/-- Claim C9: every observable stored value — from `radians`, `degrees`,
`abs` of a constructed angle, or `add`/`sub` — lies in the closed interval
`[-π, π]`, and both endpoints are attained: input `-π` stores exactly `-π`
and input `π` stores exactly `π`. -/
theorem C9_closed_interval_invariant :
    (∀ v : ℝ, (Angle.radians v).as_radians ∈ Set.Icc (-π) π
      ∧ (Angle.degrees v).as_radians ∈ Set.Icc (-π) π
      ∧ ((Angle.radians v).abs).as_radians ∈ Set.Icc (-π) π)
    ∧ (∀ a b : Angle, (Angle.add a b).as_radians ∈ Set.Icc (-π) π
      ∧ (Angle.sub a b).as_radians ∈ Set.Icc (-π) π)
    ∧ (Angle.radians (-π)).as_radians = -π
    ∧ (Angle.radians π).as_radians = π := by
  refine ⟨fun v => ⟨normalize_value_mem ⟨v⟩, normalize_value_mem ⟨v * (π / 180)⟩, ?_⟩,
    fun a b => ⟨normalize_value_mem _, normalize_value_mem _⟩,
    value_radians_neg_pi, value_radians_pi⟩
  have h := normalize_value_mem ⟨v⟩
  rw [Set.mem_Icc] at h
  show |(Angle.radians v).value| ∈ Set.Icc (-π) π
  rw [Set.mem_Icc]
  refine ⟨?_, ?_⟩
  · linarith [abs_nonneg (Angle.radians v).value, Real.pi_pos]
  · rw [abs_le]
    exact ⟨h.1, h.2⟩

/-- Claim C10: `is_within` is symmetric in its first two arguments — the
normalized differences `a - b` and `b - a` agree in absolute value, also at
the `±π` boundary where they differ only in sign. -/
theorem C10_is_within_symm (a b d : Angle) :
    Angle.is_within a b d ↔ Angle.is_within b a d := by
  show |(Angle.sub a b).value| < d.value ↔ |(Angle.sub b a).value| < d.value
  have h : |(Angle.sub b a).value| = |(Angle.sub a b).value| := by
    show |(Angle.normalize ⟨b.value - a.value⟩).value|
        = |(Angle.normalize ⟨a.value - b.value⟩).value|
    rw [show b.value - a.value = -(a.value - b.value) by ring]
    exact abs_normalize_neg _
  rw [h]

end AngleLib
